import Mathlib

/-!
Verification of the x-note build pipeline core against its specification.

The development shallowly embeds the deterministic text-processing core of
the repository: the markdown block parser, the critical-CSS extraction and
publishing pipeline, the export post-processor, and the locale path
resolver.  JavaScript strings are modelled as `List Char`; JavaScript
records keyed by strings are modelled as insertion-ordered association
lists; the file system is modelled as an association list from file names
to contents (spec section 1 treats the file-system and hashing primitives
as external collaborators that are assumed reliable).
-/

set_option autoImplicit false

namespace XNote

/-- JavaScript string, modelled as a list of characters. -/
abbrev JStr := List Char

/-- Whitespace test used by the JavaScript regex class backslash-s
(the source only ever meets ASCII whitespace here). -/
def isJsSpace (c : Char) : Bool :=
  c = ' ' || c = '\t' || c = '\n' || c = '\r' || c = '\x0b' || c = '\x0c'

/-- `String.prototype.split('\n')`: split on every newline, keeping empty
pieces; the empty string yields one empty piece. -/
def splitLinesAux : JStr → JStr → List JStr
  | [], acc => [acc.reverse]
  | c :: rest, acc =>
    if c = '\n' then acc.reverse :: splitLinesAux rest []
    else splitLinesAux rest (c :: acc)

/-- `md.split('\n')`. -/
def splitLines (s : JStr) : List JStr := splitLinesAux s []

/-- `Array.prototype.join('\n')`. -/
def joinLines : List JStr → JStr
  | [] => []
  | [l] => l
  | l :: ls => l ++ '\n' :: joinLines ls

/-- `Array.prototype.join('')`: concatenation of all pieces. -/
def joinAll : List JStr → JStr
  | [] => []
  | l :: ls => l ++ joinAll ls

/-- `Array.prototype.join(' ')`. -/
def joinSpace : List JStr → JStr
  | [] => []
  | [l] => l
  | l :: ls => l ++ ' ' :: joinSpace ls

/-- `String.prototype.trim()`: drop whitespace from both ends. -/
def trimJs (s : JStr) : JStr :=
  ((s.dropWhile isJsSpace).reverse.dropWhile isJsSpace).reverse

/-- `String.prototype.replace(pat, rep)` with a plain-string pattern:
replace the first occurrence only; no occurrence leaves the string
unchanged. -/
def replaceFirst : JStr → JStr → JStr → JStr
  | [], pat, rep => if pat.isPrefixOf [] then rep else []
  | s@(c :: rest), pat, rep =>
    if pat.isPrefixOf s then rep ++ s.drop pat.length
    else c :: replaceFirst rest pat rep

/-- Index of the first occurrence of `pat` in a string, if any
(`String.prototype.indexOf` for string patterns, as an `Option`). -/
def firstOccIdx (pat : JStr) : JStr → Option Nat
  | [] => if pat.isPrefixOf [] then some 0 else none
  | c :: rest =>
    if pat.isPrefixOf (c :: rest) then some 0
    else (firstOccIdx pat rest).map (· + 1)

/-- `String.prototype.includes(pat)`. -/
def hasSub (s : JStr) (pat : JStr) : Bool := (firstOccIdx pat s).isSome

/-- `String.prototype.indexOf(c)` for a single character: index of the
first occurrence, `-1` when absent. -/
def jsIndexOfChar (s : JStr) (c : Char) : Int :=
  match s.findIdx? (· = c) with
  | some i => (i : Int)
  | none => -1

/-!
## BlockParser (source: `getBlockName` / `fillBlock` / block-parse loop)

JavaScript objects used as records (`blocks[name] = text`) preserve
insertion order and update the existing slot on re-assignment; they are
modelled as insertion-ordered association lists.
-/

/-- Insertion-ordered record, as the JavaScript object `blocks`. -/
abbrev Record := List (JStr × JStr)

/-- `blocks[k] = v`: update the slot in place if `k` is present, else
append a new entry at the end (JavaScript object semantics). -/
def setKey : Record → JStr → JStr → Record
  | [], k, v => [(k, v)]
  | (k', v') :: r, k, v =>
    if k' = k then (k', v) :: r else (k', v') :: setKey r k v

/-- `blocks[k]` as an `Option`. -/
def lookupRec : Record → JStr → Option JStr
  | [], _ => none
  | (k', v') :: r, k => if k' = k then some v' else lookupRec r k

/-- Source `getBlockName`: a line starting with a level-2 heading marker
names a block by the trimmed rest of the line
(`text.replace('## ', '').trim()`); a line starting a CSS fence or an
inline style tag names the reserved `style` block; otherwise none. -/
def getBlockName (text : JStr) : Option JStr :=
  if ("## ".toList).isPrefixOf text then
    some (trimJs (replaceFirst text ("## ".toList) []))
  else if ("```css".toList).isPrefixOf text || ("<style>".toList).isPrefixOf text then
    some ("style".toList)
  else
    none

/-- Fuel-driven worker for `stripStyleTags`; every step consumes at
least one character, so fuel equal to the string length never runs
out. -/
def stripStyleTagsFuel : Nat → JStr → JStr
  | 0, s => s
  | _ + 1, [] => []
  | fuel + 1, c :: rest =>
    if ("</style>".toList).isPrefixOf (c :: rest) then stripStyleTagsFuel fuel (rest.drop 7)
    else if ("<style>".toList).isPrefixOf (c :: rest) then stripStyleTagsFuel fuel (rest.drop 6)
    else c :: stripStyleTagsFuel fuel rest

/-- Global regex replace of `<style>` and `</style>` markers with the
empty string (source `.replace(/<\/?style>/g, '')`): a single
left-to-right scan removing each non-overlapping match. -/
def stripStyleTags (s : JStr) : JStr := stripStyleTagsFuel s.length s

/-- Fuel-driven worker for `stripCssFence`; every step consumes at least
one character, so fuel equal to the string length never runs out. -/
def stripCssFenceFuel : Nat → JStr → JStr
  | 0, s => s
  | _ + 1, [] => []
  | fuel + 1, c :: rest =>
    if ("```".toList).isPrefixOf (c :: rest)
        ∧ ("css".toList).isPrefixOf ((rest.drop 2).dropWhile isJsSpace) then
      stripCssFenceFuel fuel (((rest.drop 2).dropWhile isJsSpace).drop 3)
    else c :: stripCssFenceFuel fuel rest

/-- Global regex replace of CSS fence openers with the empty string
(source `.replace(/```(\s*css)/g, '')`): a match is three backticks,
a (maximal) whitespace run, then `css`; the whole match is removed.
The bare closing fence (three backticks not followed by `css`) does not
match and is kept. -/
def stripCssFence (s : JStr) : JStr := stripCssFenceFuel s.length s

/-- Source `fillBlock`: no-op on an empty line list; the `style` block is
the newline-join of its lines with style tags and CSS fence openers
stripped; any other block drops its first (heading) line and joins the
rest. -/
def fillBlock (blocks : Record) (name : JStr) (lineList : List JStr) : Record :=
  if lineList = [] then blocks
  else
    let fullText :=
      if name = "style".toList then
        stripCssFence (stripStyleTags (joinLines lineList))
      else
        joinLines (lineList.drop 1)
    setKey blocks name fullText

/-- The block-parse loop of the source: scan lines left to right, starting
a new block at each line that names one (flushing the block in progress,
the naming line retained at the head of the new block), and flush the
final block at end of input. -/
def parseLoop : List JStr → JStr → List JStr → Record → Record
  | [], blockName, cacheList, blocks => fillBlock blocks blockName cacheList
  | line :: rest, blockName, cacheList, blocks =>
    match getBlockName line with
    | some n => parseLoop rest n [line] (fillBlock blocks blockName cacheList)
    | none => parseLoop rest blockName (cacheList ++ [line]) blocks

/-- Entry point of the block parser: split into lines and run the loop
from the initial empty block name. -/
def parseBlocks (md : JStr) : Record := parseLoop (splitLines md) [] [] []

/-!
## Hashing and the CSS publisher (source: `getHash`, `writeCSSFile`)
-/

/-- Hexadecimal digit for a value below 16. -/
def hexDigit (n : Nat) : Char :=
  if n < 10 then Char.ofNat ('0'.toNat + n) else Char.ofNat ('a'.toNat + (n - 10))

/-- Modelled from the spec: the digest primitive behind `getHash`
(Node `createHash('md5').update(str).digest('hex')`) is an external
collaborator, out of scope per spec section 1 ("a generic file-system and
hashing primitive (read/write text files, compute a content digest) -
assumed reliable; its correctness is out of scope").  It is modelled as a
deterministic 32-hex-character digest of the input string; no theorem
below depends on anything but its determinism. -/
def md5Hex (s : JStr) : JStr :=
  let h : Nat := s.foldl (fun a c => (a * 131 + c.toNat + 911382323) % (2 ^ 128)) 7
  (List.range 32).map (fun i => hexDigit ((h / 16 ^ i) % 16))

/-- Source `getHash`: hex digest truncated to its first 8 characters
(the source always uses the default length 8). -/
def getHash (s : JStr) : JStr := (md5Hex s).take 8

/-- Derived CSS file name of `writeCSSFile`:
`style-` + key + `.` + getHash(hashKey) + `.css`. -/
def cssFileName (key : JStr) (hashKey : JStr) : JStr :=
  ("style-".toList) ++ key ++ ('.' :: getHash hashKey) ++ (".css".toList)

/-- The output directory, modelled as an insertion-ordered association
list from file names to file contents (spec section 1: the file-system
primitive is an assumed-reliable external collaborator). -/
abbrev FS := List (JStr × JStr)

/-- Content of a file in the output directory, if present. -/
def lookupFS : FS → JStr → Option JStr
  | [], _ => none
  | (n, c) :: fs, name => if n = name then some c else lookupFS fs name

/-- Source `writeCSSFile`: derive the file name, and only when no file of
that name exists write the CSS verbatim.  Returns the updated directory,
the file name, and whether a physical write happened. -/
def writeCSSFile (fs : FS) (key : JStr) (hashKey : JStr) (cssString : JStr) :
    FS × JStr × Bool :=
  let fileName := cssFileName key hashKey
  if (lookupFS fs fileName).isSome then (fs, fileName, false)
  else (fs ++ [(fileName, cssString)], fileName, true)

/-- File name derived for a style fragment as the export pipeline calls
the publisher: the hash key is `ids.join('')`. -/
def deriveFileName (key : JStr) (ruleIds : List JStr) : JStr :=
  cssFileName key (joinAll ruleIds)

/-- A sequence of publisher calls `(key, hashKey, css)` run against one
output directory, together with the log of the physical writes
`(fileName, content)` they performed, in order. -/
def runCalls : FS → List (JStr × JStr × JStr) → FS × List (JStr × JStr)
  | fs, [] => (fs, [])
  | fs, (key, hashKey, css) :: rest =>
    let w := writeCSSFile fs key hashKey css
    let r := runCalls w.1 rest
    if w.2.2 then (r.1, (w.2.1, css) :: r.2) else r

/-!
## Link injection (source: `addLinkStyle`)

The public-path prefix comes from the framework configuration
(`api.userConfig.publicPath || api.config.publicPath`); it is passed here
as the parameter `pubPath`.
-/

/-- The injected stylesheet link element. -/
def linkTag (pubPath : JStr) (cssFile : JStr) : JStr :=
  ("<link rel=\"stylesheet\" href=\"".toList) ++ pubPath ++ cssFile ++ ("\">".toList)

/-- Source `addLinkStyle`: insert the link before the first `</head>`
(default), or after the first `<head>` when `prepend` is set; both are
first-occurrence string replacements, so HTML without the marker is
returned unchanged. -/
def addLinkStyle (pubPath : JStr) (html : JStr) (cssFile : JStr) (prepend : Bool) : JStr :=
  if prepend then
    replaceFirst html ("<head>".toList) (("<head>".toList) ++ linkTag pubPath cssFile)
  else
    replaceFirst html ("</head>".toList) (linkTag pubPath cssFile ++ ("</head>".toList))

/-!
## CriticalStyleExtractor (source: `extractEmotionStyle`)

The style caches live in the framework-held global registry
`__ANTD_STYLE_CACHE_MANAGER_FOR_SSR__` and their critical-extraction
capability is Emotion Server `extractCritical` - both external
collaborators (spec section 4.2 calls the capability "an opaque
capability supplied by the collaborator, not reimplemented here").  A
cache is therefore modelled as a key together with its extraction
capability.
-/

/-- Result of a cache's critical-extraction capability. -/
structure ExtractResult where
  css : JStr
  ids : List JStr
  deriving DecidableEq, Repr

/-- An externally supplied style cache: its key plus its opaque
critical-extraction capability. -/
structure SSRCache where
  key : JStr
  extractCritical : JStr → ExtractResult

/-- One extracted style fragment as built by `extractEmotionStyle`. -/
structure StyleFragment where
  key : JStr
  css : JStr
  ids : List JStr
  tag : JStr
  deriving DecidableEq, Repr

/-- The fragment `extractEmotionStyle` builds for one cache. -/
def fragmentOf (html : JStr) (cache : SSRCache) : StyleFragment :=
  let result := cache.extractCritical html
  { key := cache.key
    css := result.css
    ids := result.ids
    tag := ("<style data-emotion=\"".toList) ++ cache.key ++ ' ' ::
      joinSpace result.ids ++ ("\">".toList) ++ result.css ++ ("</style>".toList) }

/-- Source `extractEmotionStyle`: map every cache to its fragment, or to
nothing when the extracted CSS is empty, then drop the empty results
(the source's `.map(...)` returning `null` for empty CSS followed by
`.filter(Boolean)`). -/
def extractEmotionStyle (caches : List SSRCache) (html : JStr) : List StyleFragment :=
  (caches.map (fun cache =>
    let result := cache.extractCritical html
    if result.css = [] then none else some (fragmentOf html cache))).filterMap id

/-!
## ExportPostProcessor (source: the `api.modifyExportHTMLFiles` callback)
-/

/-- One exported page. -/
structure HtmlFile where
  path : JStr
  content : JStr
  deriving DecidableEq, Repr

/-- The per-page body of the export callback: extract the page's critical
styles and, for each fragment in order, publish its CSS file
(`writeCSSFile(result.key, result.ids.join(''), result.css)`) and inject
the link into the page content.  The file-system state threads through
the fragment loop in execution order. -/
def processFile (pubPath : JStr) (caches : List SSRCache) (fs : FS) (file : HtmlFile) :
    FS × HtmlFile :=
  let styles := extractEmotionStyle caches file.content
  let r := styles.foldl
    (fun acc st =>
      let w := writeCSSFile acc.1 st.key (joinAll st.ids) st.css
      (w.1, addLinkStyle pubPath acc.2 w.2.1 false))
    (fs, file.content)
  (r.1, { path := file.path, content := r.2 })

/-- Page-list traversal of the export callback, threading the
file-system state in execution order. -/
def processFiles (pubPath : JStr) (caches : List SSRCache) : FS → List HtmlFile →
    FS × List HtmlFile
  | fs, [] => (fs, [])
  | fs, f :: rest =>
    let r := processFile pubPath caches fs f
    let r' := processFiles pubPath caches r.1 rest
    (r'.1, r.2 :: r'.2)

/-- Source `api.modifyExportHTMLFiles` callback: drop every page whose
path contains the parametric marker `:`, then post-process the remaining
pages in order. -/
def modifyExportHTMLFiles (pubPath : JStr) (caches : List SSRCache) (fs : FS)
    (files : List HtmlFile) : FS × List HtmlFile :=
  processFiles pubPath caches fs
    (files.filter (fun f => !(hasSub f.path (":".toList))))

/-!
## LocalePathResolver (source: `isZhCN`, `getLocalizedPathname`)
-/

/-- Source `isZhCN`: the anchored regex test (the suffix `-cn` followed
by an optional slash and the end of the string), true exactly when the
path ends in `-cn` or `-cn/`. -/
def isZhCN (pathname : JStr) : Bool :=
  ("-cn".toList).isSuffixOf pathname || ("-cn/".toList).isSuffixOf pathname

/-- Path normalization of `getLocalizedPathname`:
`path.indexOf('/') === 0 ? path : '/' + path`. -/
def normalizePath (path : JStr) : JStr :=
  if jsIndexOfChar path '/' = 0 then path else '/' :: path

/-- The regex test `/\/?index(-cn)?/.test(pathname)`: both groups are
optional, so a match exists exactly when `index` occurs as a substring. -/
def hasIndexPat (pathname : JStr) : Bool := hasSub pathname ("index".toList)

/-- The regex replace `pathname.replace(/\/$/, '-cn/')`: when the path
ends in `/`, that final character is replaced by `-cn/`. -/
def replaceTrailingSlash (pathname : JStr) : JStr :=
  if ("/".toList).isSuffixOf pathname then pathname.dropLast ++ ("-cn/".toList)
  else pathname

/-- Source `getLocalizedPathname`: normalize the path to start with `/`;
for the default locale collapse any path containing `index` to the root
and otherwise remove the first `-cn`; for locale B map the root to
`/index-cn`, handle a path whose first `/` is its last character by the
trailing-slash rewrite, and otherwise append `-cn`. -/
def getLocalizedPathname (path : JStr) (zhCN : Bool) : JStr :=
  let pathname := normalizePath path
  if !zhCN then
    if hasIndexPat pathname then "/".toList
    else replaceFirst pathname ("-cn".toList) []
  else if pathname = "/".toList then "/index-cn".toList
  else if jsIndexOfChar pathname '/' = (pathname.length : Int) - 1 then
    replaceTrailingSlash pathname
  else pathname ++ ("-cn".toList)

/-!
## Lemmas about the string primitives
-/

theorem firstOccIdx_nil (pat : JStr) :
    firstOccIdx pat [] = if pat.isPrefixOf [] then some 0 else none := rfl

theorem firstOccIdx_cons (pat : JStr) (c : Char) (rest : JStr) :
    firstOccIdx pat (c :: rest) =
      if pat.isPrefixOf (c :: rest) then some 0
      else (firstOccIdx pat rest).map (· + 1) := rfl

/-- A string has an occurrence of `pat` exactly when `pat` is an infix. -/
theorem hasSub_iff (s pat : JStr) : hasSub s pat = true ↔ pat <:+: s := by
  induction s with
  | nil =>
    simp only [hasSub, firstOccIdx_nil, List.infix_nil]
    constructor
    · intro h
      by_cases hp : pat.isPrefixOf ([] : JStr)
      · exact List.prefix_nil.mp (List.isPrefixOf_iff_prefix.mp hp)
      · simp [hp] at h
    · intro h; subst h; simp [List.isPrefixOf]
  | cons c rest ih =>
    simp only [hasSub, firstOccIdx_cons, List.infix_cons_iff]
    by_cases hp : pat.isPrefixOf (c :: rest)
    · simp [hp, List.isPrefixOf_iff_prefix.mp hp]
    · rw [if_neg hp]
      show (Option.map (· + 1) (firstOccIdx pat rest)).isSome = true ↔ _
      rw [Option.isSome_map']
      show hasSub rest pat = true ↔ _
      constructor
      · intro h; exact Or.inr (ih.mp h)
      · rintro (h | h)
        · exact absurd (List.isPrefixOf_iff_prefix.mpr h) hp
        · exact ih.mpr h

/-- No occurrence of the pattern means `replaceFirst` is the identity. -/
theorem replaceFirst_of_not_hasSub (s pat rep : JStr) (h : hasSub s pat = false) :
    replaceFirst s pat rep = s := by
  induction s with
  | nil =>
    simp only [hasSub, firstOccIdx_nil] at h
    by_cases hp : pat.isPrefixOf ([] : JStr)
    · simp [hp] at h
    · simp [replaceFirst, hp]
  | cons c rest ih =>
    simp only [hasSub, firstOccIdx_cons] at h
    by_cases hp : pat.isPrefixOf (c :: rest)
    · simp [hp] at h
    · rw [if_neg hp] at h
      rw [Option.isSome_map'] at h
      simp only [replaceFirst]
      rw [if_neg hp, ih h]

/-- `replaceFirst` rewrites exactly the first occurrence of the pattern. -/
theorem replaceFirst_firstOcc (s : JStr) : ∀ (pat rep : JStr) (i : Nat),
    firstOccIdx pat s = some i →
    replaceFirst s pat rep = s.take i ++ rep ++ s.drop (i + pat.length) := by
  induction s with
  | nil =>
    intro pat rep i h
    simp only [firstOccIdx_nil] at h
    by_cases hp : pat.isPrefixOf ([] : JStr)
    · have hpat : pat = [] := List.prefix_nil.mp (List.isPrefixOf_iff_prefix.mp hp)
      simp [hp] at h
      subst hpat
      simp [replaceFirst, ← h]
    · simp [hp] at h
  | cons c rest ih =>
    intro pat rep i h
    simp only [firstOccIdx_cons] at h
    by_cases hp : pat.isPrefixOf (c :: rest)
    · rw [if_pos hp] at h
      obtain rfl : (0 : Nat) = i := by simpa using h
      simp [replaceFirst, hp]
    · rw [if_neg hp] at h
      obtain ⟨j, hj, rfl⟩ := Option.map_eq_some'.mp h
      have hrec := ih pat rep j hj
      simp only [replaceFirst]
      rw [if_neg hp, hrec, List.take_succ_cons,
        show j + 1 + pat.length = (j + pat.length) + 1 from by omega,
        List.drop_succ_cons]
      simp

/-- A leading character that cannot start the pattern passes through
`firstOccIdx` untouched. -/
theorem hasSub_cons_of_no_match (c : Char) (s pat : JStr)
    (hp : pat.isPrefixOf (c :: s) = false) :
    hasSub (c :: s) pat = hasSub s pat := by
  simp [hasSub, firstOccIdx_cons, hp]

/-!
## Lemmas about the locale path resolver
-/

theorem jsIndexOfChar_cons_self (c : Char) (t : JStr) : jsIndexOfChar (c :: t) c = 0 := by
  simp [jsIndexOfChar, List.findIdx?_cons]

/-- The normalized path always starts with a separator. -/
theorem normalizePath_shape (p : JStr) : ∃ t, normalizePath p = '/' :: t := by
  unfold normalizePath
  split
  next h =>
    unfold jsIndexOfChar at h
    rcases hf : p.findIdx? (· = '/') with _ | i
    · rw [hf] at h; simp at h
    · rw [hf] at h
      simp only [Option.some.injEq] at h
      have hi : i = 0 := by exact_mod_cast h
      subst hi
      obtain ⟨hlt, hp, -⟩ := List.findIdx?_eq_some_iff_getElem.mp hf
      cases p with
      | nil => simp at hlt
      | cons c t =>
        refine ⟨t, ?_⟩
        have : c = '/' := by simpa using hp
        rw [this]
  next => exact ⟨p, rfl⟩

/-- Normalization is the identity on a path that already starts with a
separator. -/
theorem normalizePath_of_slash (t : JStr) : normalizePath ('/' :: t) = '/' :: t := by
  unfold normalizePath
  rw [if_pos (jsIndexOfChar_cons_self '/' t)]

/-- Resolving a non-root separator-led path to locale B appends the
suffix. -/
theorem getLocalizedPathname_true_of_slash (t : JStr) (hne : ('/' :: t : JStr) ≠ "/".toList) :
    getLocalizedPathname ('/' :: t) true = ('/' :: t) ++ "-cn".toList := by
  unfold getLocalizedPathname
  rw [normalizePath_of_slash]
  have ht : t ≠ [] := by
    intro h; exact hne (by rw [h]; rfl)
  rw [if_neg (by simp)]
  rw [if_neg hne]
  rw [if_neg ?_]
  rw [jsIndexOfChar_cons_self]
  intro hcon
  have : t.length = 0 := by
    simp only [List.length_cons] at hcon
    omega
  exact ht (List.eq_nil_of_length_eq_zero this)

/-- Shape of resolution to locale B: always a separator-led string with
the suffix appended. -/
theorem getLocalizedPathname_true_shape (p : JStr) :
    ∃ q, getLocalizedPathname p true = q ++ "-cn".toList ∧ ∃ t, q = '/' :: t := by
  obtain ⟨t, ht⟩ := normalizePath_shape p
  by_cases hroot : ('/' :: t : JStr) = "/".toList
  · refine ⟨"/index".toList, ?_, "index".toList, rfl⟩
    unfold getLocalizedPathname
    rw [ht, hroot]
    rfl
  · refine ⟨'/' :: t, ?_, t, rfl⟩
    have step : getLocalizedPathname ('/' :: t) true = ('/' :: t) ++ "-cn".toList :=
      getLocalizedPathname_true_of_slash t hroot
    unfold getLocalizedPathname at step ⊢
    rw [ht]
    rw [normalizePath_of_slash] at step
    exact step

/-- Shape of resolution to the default locale: always separator-led. -/
theorem getLocalizedPathname_false_shape (p : JStr) :
    ∃ t, getLocalizedPathname p false = '/' :: t := by
  obtain ⟨t, ht⟩ := normalizePath_shape p
  unfold getLocalizedPathname
  rw [ht]
  simp only [Bool.not_false, if_true]
  by_cases hip : hasIndexPat ('/' :: t)
  · rw [if_pos hip]; exact ⟨[], rfl⟩
  · rw [if_neg hip]
    by_cases hpre : ("-cn".toList).isPrefixOf ('/' :: t)
    · exact absurd (List.isPrefixOf_iff_prefix.mp hpre) (by
        intro hcon
        obtain ⟨u, hu⟩ := hcon
        simp at hu)
    · refine ⟨replaceFirst t ("-cn".toList) [], ?_⟩
      simp only [replaceFirst]
      rw [if_neg hpre]

/-- The suffix pattern never starts at a separator character. -/
theorem cn_not_prefixOf_slash (t : JStr) : ("-cn".toList).isPrefixOf ('/' :: t) = false := rfl

/-- A string with no occurrence of the locale suffix is not in locale B. -/
theorem isZhCN_false_of_no_cn (s : JStr) (h : hasSub s ("-cn".toList) = false) :
    isZhCN s = false := by
  cases hzh : isZhCN s
  · rfl
  · exfalso
    unfold isZhCN at hzh
    rcases Bool.or_eq_true _ _ ▸ hzh with hsuf | hsuf
    · have : ("-cn".toList) <:+: s := (List.isSuffixOf_iff_suffix.mp hsuf).isInfix
      rw [(hasSub_iff s _).mpr this] at h
      exact Bool.true_eq_false.mp h
    · have h1 : ("-cn".toList) <+: ("-cn/".toList) := ⟨['/'], rfl⟩
      have h2 : ("-cn/".toList) <:+: s := (List.isSuffixOf_iff_suffix.mp hsuf).isInfix
      have : ("-cn".toList) <:+: s := h1.isInfix.trans h2
      rw [(hasSub_iff s _).mpr this] at h
      exact Bool.true_eq_false.mp h

/-- Appending the locale suffix lands in locale B. -/
theorem isZhCN_append_cn (q : JStr) : isZhCN (q ++ "-cn".toList) = true := by
  unfold isZhCN
  have h : ("-cn".toList).isSuffixOf (q ++ "-cn".toList) = true :=
    List.isSuffixOf_iff_suffix.mpr (List.suffix_append q _)
  rw [h, Bool.true_or]

/-- Claim C1: the locale path resolver is NOT idempotent as claimed; the
corrected statement.  Resolving to the default locale is idempotent on
every path whose resolution is the root or contains neither the locale
suffix nor the index token; resolving to locale B is never idempotent: a
second resolution appends the suffix again. -/
theorem getLocalizedPathname_idem_corrected (p : JStr) :
    ((getLocalizedPathname p false = "/".toList
        ∨ (hasSub (getLocalizedPathname p false) ("-cn".toList) = false
            ∧ hasSub (getLocalizedPathname p false) ("index".toList) = false)) →
      getLocalizedPathname (getLocalizedPathname p false) false
        = getLocalizedPathname p false)
    ∧ getLocalizedPathname (getLocalizedPathname p true) true
        ≠ getLocalizedPathname p true := by
  constructor
  · intro hyp
    obtain ⟨t₀, ht₀⟩ := getLocalizedPathname_false_shape p
    rcases hyp with hroot | ⟨hcn, hidx⟩
    · rw [hroot]
      decide
    · rw [ht₀] at hcn hidx ⊢
      unfold getLocalizedPathname
      rw [normalizePath_of_slash]
      simp only [Bool.not_false, if_true]
      rw [if_neg (by rw [hasIndexPat, hidx]; exact Bool.false_ne_true)]
      exact replaceFirst_of_not_hasSub _ _ _ hcn
  · obtain ⟨q, hq, t, hqt⟩ := getLocalizedPathname_true_shape p
    rw [hq]
    have hshape : (q ++ "-cn".toList : JStr) = '/' :: (t ++ "-cn".toList) := by
      rw [hqt]; rfl
    have hne : (q ++ "-cn".toList : JStr) ≠ "/".toList := by
      intro hcon
      have := congrArg List.length hcon
      simp at this
    rw [hshape, getLocalizedPathname_true_of_slash _ (hshape ▸ hne)]
    intro hcon
    have := congrArg List.length hcon
    simp at this

/-- Claim C1, counterexample to the claim as stated: resolving the root
to locale B twice appends the suffix twice. -/
theorem getLocalizedPathname_idem_cex :
    getLocalizedPathname (getLocalizedPathname ("/".toList) true) true
      ≠ getLocalizedPathname ("/".toList) true := by decide

/-- Witness for the corrected C1 theorem at a concrete path. -/
theorem getLocalizedPathname_idem_corrected_witness :
    getLocalizedPathname (getLocalizedPathname ("/components/button".toList) false) false
        = getLocalizedPathname ("/components/button".toList) false
      ∧ getLocalizedPathname
          (getLocalizedPathname ("/components/button".toList) true) true
        ≠ getLocalizedPathname ("/components/button".toList) true :=
  ⟨(getLocalizedPathname_idem_corrected ("/components/button".toList)).1
      (Or.inr (by constructor <;> decide)),
    (getLocalizedPathname_idem_corrected ("/components/button".toList)).2⟩

/-- Claim C6: the detector holds after resolving to locale B; after
resolving to the default locale it fails in general (see the
counterexample), but is false whenever the input contains no occurrence
of the locale suffix. -/
theorem isZhCN_getLocalizedPathname_corrected (p : JStr) :
    isZhCN (getLocalizedPathname p true) = true
    ∧ (hasSub p ("-cn".toList) = false →
        isZhCN (getLocalizedPathname p false) = false) := by
  constructor
  · obtain ⟨q, hq, -⟩ := getLocalizedPathname_true_shape p
    rw [hq]
    exact isZhCN_append_cn q
  · intro hcn
    have hcn' : hasSub (normalizePath p) ("-cn".toList) = false := by
      unfold normalizePath
      split
      · exact hcn
      · rw [hasSub_cons_of_no_match '/' p _ (cn_not_prefixOf_slash p)]
        exact hcn
    unfold getLocalizedPathname
    simp only [Bool.not_false, if_true]
    by_cases hip : hasIndexPat (normalizePath p)
    · rw [if_pos hip]; decide
    · rw [if_neg hip]
      rw [replaceFirst_of_not_hasSub _ _ _ hcn']
      exact isZhCN_false_of_no_cn _ hcn'

/-- Claim C6, counterexample to the claim as stated: a path stacking two
locale suffixes resolves for the default locale to a path that still ends
in the suffix. -/
theorem isZhCN_getLocalizedPathname_cex :
    isZhCN (getLocalizedPathname ("/a-cn-cn".toList) false) = true := by decide

/-- Witness for the corrected C6 theorem at a concrete path. -/
theorem isZhCN_getLocalizedPathname_corrected_witness :
    isZhCN (getLocalizedPathname ("/components/button".toList) true) = true
    ∧ isZhCN (getLocalizedPathname ("/components/button".toList) false) = false :=
  ⟨(isZhCN_getLocalizedPathname_corrected ("/components/button".toList)).1,
    (isZhCN_getLocalizedPathname_corrected ("/components/button".toList)).2 (by decide)⟩

/-!
## Claim C10: link injection edge cases
-/

/-- Claim C10: when the closing (default mode) or opening (prepend mode)
head marker is absent, `addLinkStyle` returns the HTML unchanged; when
the marker occurs, only its first occurrence is rewritten, the link being
placed before the closing marker or after the opening marker. -/
theorem addLinkStyle_edge_cases (pubPath html cssFile : JStr) :
    (hasSub html ("</head>".toList) = false →
      addLinkStyle pubPath html cssFile false = html)
    ∧ (hasSub html ("<head>".toList) = false →
      addLinkStyle pubPath html cssFile true = html)
    ∧ (∀ i, firstOccIdx ("</head>".toList) html = some i →
      addLinkStyle pubPath html cssFile false
        = html.take i ++ linkTag pubPath cssFile ++ ("</head>".toList) ++ html.drop (i + 7))
    ∧ (∀ i, firstOccIdx ("<head>".toList) html = some i →
      addLinkStyle pubPath html cssFile true
        = html.take i ++ ("<head>".toList) ++ linkTag pubPath cssFile ++ html.drop (i + 6)) := by
  refine ⟨?_, ?_, ?_, ?_⟩
  · intro h
    unfold addLinkStyle
    rw [if_neg (by simp)]
    exact replaceFirst_of_not_hasSub _ _ _ h
  · intro h
    unfold addLinkStyle
    rw [if_pos rfl]
    exact replaceFirst_of_not_hasSub _ _ _ h
  · intro i h
    unfold addLinkStyle
    rw [if_neg (by simp)]
    rw [replaceFirst_firstOcc html _ _ i h]
    simp [List.append_assoc]
  · intro i h
    unfold addLinkStyle
    rw [if_pos rfl]
    rw [replaceFirst_firstOcc html _ _ i h]
    simp [List.append_assoc]

/-- Witness for the C10 theorem: a page without head markers passes
through unchanged, and in a page with two closing markers only the first
is rewritten. -/
theorem addLinkStyle_edge_cases_witness :
    addLinkStyle [] ("<p>x</p>".toList) ("a.css".toList) false = "<p>x</p>".toList
    ∧ addLinkStyle [] ("<p>x</p>".toList) ("a.css".toList) true = "<p>x</p>".toList
    ∧ addLinkStyle [] ("<x></head><y></head>".toList) ("a.css".toList) false
        = ("<x></head><y></head>".toList).take 3 ++ linkTag [] ("a.css".toList)
            ++ ("</head>".toList) ++ ("<x></head><y></head>".toList).drop 10
    ∧ addLinkStyle [] ("<head><head>".toList) ("a.css".toList) true
        = ("<head><head>".toList).take 0 ++ ("<head>".toList)
            ++ linkTag [] ("a.css".toList) ++ ("<head><head>".toList).drop 6 :=
  ⟨(addLinkStyle_edge_cases [] ("<p>x</p>".toList) ("a.css".toList)).1 (by decide),
    (addLinkStyle_edge_cases [] ("<p>x</p>".toList) ("a.css".toList)).2.1 (by decide),
    (addLinkStyle_edge_cases [] ("<x></head><y></head>".toList) ("a.css".toList)).2.2.1
      3 (by decide),
    (addLinkStyle_edge_cases [] ("<head><head>".toList) ("a.css".toList)).2.2.2
      0 (by decide)⟩

/-!
## Lemmas about the output directory and the publisher
-/

theorem lookupFS_append_some (fs : FS) (l : FS) (m : JStr) (c : JStr)
    (h : lookupFS fs m = some c) : lookupFS (fs ++ l) m = some c := by
  induction fs with
  | nil => simp [lookupFS] at h
  | cons e fs ih =>
    obtain ⟨n, v⟩ := e
    by_cases hn : n = m
    · simp only [lookupFS, if_pos hn] at h ⊢
      exact h
    · simp only [lookupFS, if_neg hn] at h ⊢
      exact ih h

theorem lookupFS_append_self (fs : FS) (n : JStr) (c : JStr)
    (h : lookupFS fs n = none) : lookupFS (fs ++ [(n, c)]) n = some c := by
  induction fs with
  | nil => simp [lookupFS]
  | cons e fs ih =>
    obtain ⟨m, v⟩ := e
    by_cases hm : m = n
    · simp only [lookupFS, if_pos hm] at h
      exact (Option.some_ne_none v h).elim
    · simp only [lookupFS, if_neg hm] at h ⊢
      exact ih h

/-- Claim C4: publishing is idempotent on the output directory.  When the
derived name exists, the call performs no write and leaves the directory
untouched; when it does not, the first of two consecutive identical calls
writes and the second does not, leaving the directory as after the first:
exactly one physical write. -/
theorem writeCSSFile_idempotent (fs : FS) (key hashKey css : JStr) :
    ((lookupFS fs (cssFileName key hashKey)).isSome = true →
      writeCSSFile fs key hashKey css = (fs, cssFileName key hashKey, false))
    ∧ ((lookupFS fs (cssFileName key hashKey)).isSome = false →
      (writeCSSFile fs key hashKey css).2.2 = true
      ∧ (writeCSSFile (writeCSSFile fs key hashKey css).1 key hashKey css).2.2 = false
      ∧ (writeCSSFile (writeCSSFile fs key hashKey css).1 key hashKey css).1
          = (writeCSSFile fs key hashKey css).1) := by
  constructor
  · intro h
    unfold writeCSSFile
    rw [if_pos h]
  · intro h
    have hnone : lookupFS fs (cssFileName key hashKey) = none := by
      cases hl : lookupFS fs (cssFileName key hashKey)
      · rfl
      · rw [hl] at h; simp at h
    have h1 : writeCSSFile fs key hashKey css
        = (fs ++ [(cssFileName key hashKey, css)], cssFileName key hashKey, true) := by
      unfold writeCSSFile
      rw [if_neg (by rw [hnone]; simp)]
    have h2 : lookupFS (fs ++ [(cssFileName key hashKey, css)]) (cssFileName key hashKey)
        = some css := lookupFS_append_self fs _ _ hnone
    refine ⟨by rw [h1], ?_, ?_⟩
    · rw [h1]
      unfold writeCSSFile
      rw [if_pos (by rw [h2]; rfl)]
    · rw [h1]
      unfold writeCSSFile
      rw [if_pos (by rw [h2]; rfl)]

/-- Witness for the C4 theorem: against an empty directory the first call
writes and the second is a no-op. -/
theorem writeCSSFile_idempotent_witness :
    (writeCSSFile [] ("k".toList) ("h".toList) ("c".toList)).2.2 = true
    ∧ (writeCSSFile (writeCSSFile [] ("k".toList) ("h".toList) ("c".toList)).1
        ("k".toList) ("h".toList) ("c".toList)).2.2 = false
    ∧ (writeCSSFile (writeCSSFile [] ("k".toList) ("h".toList) ("c".toList)).1
        ("k".toList) ("h".toList) ("c".toList)).1
      = (writeCSSFile [] ("k".toList) ("h".toList) ("c".toList)).1 :=
  (writeCSSFile_idempotent [] ("k".toList) ("h".toList) ("c".toList)).2 (by decide)

/-- Claim C3, counterexample to the claim as stated: two distinct rule-id
sequences whose concatenations coincide derive the same file name. -/
theorem deriveFileName_cex :
    deriveFileName ("k".toList) [("ab".toList)]
        = deriveFileName ("k".toList) [("a".toList), ("b".toList)]
    ∧ ([("ab".toList)] : List JStr) ≠ [("a".toList), ("b".toList)] := by
  constructor
  · rfl
  · decide

/-- Claim C3, corrected: the derived name depends on the rule-id sequence
only through its order-preserving concatenation, so two sequences with
the same concatenation (same cacheKey) always map to the same name;
unequal sequences are not guaranteed unequal names. -/
theorem deriveFileName_of_join_eq (key : JStr) (ids₁ ids₂ : List JStr)
    (h : joinAll ids₁ = joinAll ids₂) :
    deriveFileName key ids₁ = deriveFileName key ids₂ := by
  unfold deriveFileName
  rw [h]

/-- Witness for the corrected C3 theorem at the counterexample pair. -/
theorem deriveFileName_of_join_eq_witness :
    deriveFileName ("k".toList) [("ab".toList)]
      = deriveFileName ("k".toList) [("a".toList), ("b".toList)] :=
  deriveFileName_of_join_eq ("k".toList) [("ab".toList)] [("a".toList), ("b".toList)]
    (by decide)

/-- A call whose derived name already exists contributes nothing: same
directory, no log entry. -/
theorem runCalls_cons_exists (fs : FS) (key hashKey css : JStr)
    (rest : List (JStr × JStr × JStr))
    (h : (lookupFS fs (cssFileName key hashKey)).isSome = true) :
    runCalls fs ((key, hashKey, css) :: rest) = runCalls fs rest := by
  show (let w := writeCSSFile fs key hashKey css
        let r := runCalls w.1 rest
        if w.2.2 then (r.1, (w.2.1, css) :: r.2) else r) = runCalls fs rest
  rw [show writeCSSFile fs key hashKey css = (fs, cssFileName key hashKey, false) by
    unfold writeCSSFile; rw [if_pos h]]
  rfl

/-- A call whose derived name is new writes the file and logs it. -/
theorem runCalls_cons_new (fs : FS) (key hashKey css : JStr)
    (rest : List (JStr × JStr × JStr))
    (h : (lookupFS fs (cssFileName key hashKey)).isSome = false) :
    runCalls fs ((key, hashKey, css) :: rest)
      = ((runCalls (fs ++ [(cssFileName key hashKey, css)]) rest).1,
          (cssFileName key hashKey, css)
            :: (runCalls (fs ++ [(cssFileName key hashKey, css)]) rest).2) := by
  show (let w := writeCSSFile fs key hashKey css
        let r := runCalls w.1 rest
        if w.2.2 then (r.1, (w.2.1, css) :: r.2) else r) = _
  rw [show writeCSSFile fs key hashKey css
      = (fs ++ [(cssFileName key hashKey, css)], cssFileName key hashKey, true) by
    unfold writeCSSFile; rw [if_neg (by rw [h]; exact Bool.false_ne_true)]]
  rfl

/-- Contents present before a call sequence are still present, unchanged,
after it: the publisher never overwrites. -/
theorem runCalls_lookup_mono (calls : List (JStr × JStr × JStr)) :
    ∀ (fs : FS) (m c : JStr), lookupFS fs m = some c →
      lookupFS (runCalls fs calls).1 m = some c := by
  induction calls with
  | nil => intro fs m c h; exact h
  | cons call rest ih =>
    intro fs m c h
    obtain ⟨key, hashKey, css⟩ := call
    by_cases hex : (lookupFS fs (cssFileName key hashKey)).isSome = true
    · rw [runCalls_cons_exists fs key hashKey css rest hex]
      exact ih fs m c h
    · rw [runCalls_cons_new fs key hashKey css rest (by simpa using hex)]
      exact ih _ m c (lookupFS_append_some fs _ m c h)

/-- Every logged write was for a name absent from the starting
directory. -/
theorem runCalls_log_fresh (calls : List (JStr × JStr × JStr)) :
    ∀ (fs : FS) (e : JStr × JStr), e ∈ (runCalls fs calls).2 →
      lookupFS fs e.1 = none := by
  induction calls with
  | nil => intro fs e he; simp [runCalls] at he
  | cons call rest ih =>
    intro fs e he
    obtain ⟨key, hashKey, css⟩ := call
    by_cases hex : (lookupFS fs (cssFileName key hashKey)).isSome = true
    · rw [runCalls_cons_exists fs key hashKey css rest hex] at he
      exact ih fs e he
    · have hnone : lookupFS fs (cssFileName key hashKey) = none := by
        cases hl : lookupFS fs (cssFileName key hashKey)
        · rfl
        · rw [hl] at hex; simp at hex
      rw [runCalls_cons_new fs key hashKey css rest (by simpa using hex)] at he
      rcases List.mem_cons.mp he with rfl | he'
      · exact hnone
      · have h1 := ih _ e he'
        cases hl : lookupFS fs e.1
        · rfl
        · rw [lookupFS_append_some fs _ e.1 _ hl] at h1
          exact h1

/-- Claim C7, corrected: across any sequence of publisher calls against
one directory, the derived names of the physical writes are pairwise
distinct (each name is written at most once), and the final directory
holds, for every logged write, exactly the content of that single write -
no two physical writes for the same derived name can disagree.  Distinct
calls may still derive one name with different css arguments; the later
call is then a no-op (see the counterexample). -/
theorem runCalls_write_once (fs : FS) (calls : List (JStr × JStr × JStr)) :
    ((runCalls fs calls).2.map Prod.fst).Nodup
    ∧ ∀ e ∈ (runCalls fs calls).2, lookupFS (runCalls fs calls).1 e.1 = some e.2 := by
  induction calls generalizing fs with
  | nil => exact ⟨List.nodup_nil, by intro e he; simp [runCalls] at he⟩
  | cons call rest ih =>
    obtain ⟨key, hashKey, css⟩ := call
    by_cases hex : (lookupFS fs (cssFileName key hashKey)).isSome = true
    · rw [runCalls_cons_exists fs key hashKey css rest hex]
      exact ih fs
    · have hnone : lookupFS fs (cssFileName key hashKey) = none := by
        cases hl : lookupFS fs (cssFileName key hashKey)
        · rfl
        · rw [hl] at hex; simp at hex
      have hself := lookupFS_append_self fs (cssFileName key hashKey) css hnone
      rw [runCalls_cons_new fs key hashKey css rest (by simpa using hex)]
      refine ⟨?_, ?_⟩
      · simp only [List.map_cons, List.nodup_cons]
        refine ⟨?_, (ih _).1⟩
        intro hmem
        obtain ⟨e, he, he1⟩ := List.mem_map.mp hmem
        have := runCalls_log_fresh rest _ e he
        rw [he1] at this
        rw [hself] at this
        exact Option.some_ne_none css this
      · intro e he
        rcases List.mem_cons.mp he with rfl | he'
        · exact runCalls_lookup_mono rest _ _ _ hself
        · exact (ih _).2 e he'

/-- Claim C7, counterexample to the claim as stated: two calls with the
same cacheKey and rule ids but different css derive the same file name;
the disk keeps the first content and disagrees with the second call's
css. -/
theorem runCalls_write_once_cex :
    cssFileName ("k".toList) ("h".toList) = cssFileName ("k".toList) ("h".toList)
    ∧ ("a".toList : JStr) ≠ ("b".toList)
    ∧ lookupFS (runCalls []
          [(("k".toList), ("h".toList), ("a".toList)),
            (("k".toList), ("h".toList), ("b".toList))]).1
        (cssFileName ("k".toList) ("h".toList)) = some ("a".toList) := by
  refine ⟨rfl, by decide, by decide⟩

/-- Witness for the corrected C7 theorem at a concrete call sequence. -/
theorem runCalls_write_once_witness :
    ((runCalls []
        [(("k".toList), ("h".toList), ("a".toList)),
          (("k".toList), ("h".toList), ("b".toList))]).2.map Prod.fst).Nodup
    ∧ lookupFS (runCalls []
          [(("k".toList), ("h".toList), ("a".toList)),
            (("k".toList), ("h".toList), ("b".toList))]).1
        (cssFileName ("k".toList) ("h".toList)) = some ("a".toList) :=
  ⟨(runCalls_write_once []
      [(("k".toList), ("h".toList), ("a".toList)),
        (("k".toList), ("h".toList), ("b".toList))]).1,
    (runCalls_write_once []
      [(("k".toList), ("h".toList), ("a".toList)),
        (("k".toList), ("h".toList), ("b".toList))]).2
      (cssFileName ("k".toList) ("h".toList), "a".toList) (by decide)⟩

/-!
## Claim C9: the critical-style extractor
-/

/-- Unfolding the extractor one cache at a time. -/
theorem extractEmotionStyle_cons (cache : SSRCache) (rest : List SSRCache) (html : JStr) :
    extractEmotionStyle (cache :: rest) html
      = (if (cache.extractCritical html).css = [] then []
          else [fragmentOf html cache]) ++ extractEmotionStyle rest html := by
  unfold extractEmotionStyle
  simp only [List.map_cons, List.filterMap_cons]
  by_cases hc : (cache.extractCritical html).css = []
  · simp [hc]
  · simp [hc]

/-- Claim C9: the extractor emits exactly one fragment for each cache
whose extracted CSS is nonempty, in the order the caches appear, and
omits every cache whose CSS is empty; in particular it emits at most one
fragment per cache. -/
theorem extractEmotionStyle_spec (caches : List SSRCache) (html : JStr) :
    extractEmotionStyle caches html
      = (caches.filter (fun cache => !((cache.extractCritical html).css.isEmpty))).map
          (fragmentOf html)
    ∧ (extractEmotionStyle caches html).length ≤ caches.length := by
  have heq : extractEmotionStyle caches html
      = (caches.filter (fun cache => !((cache.extractCritical html).css.isEmpty))).map
          (fragmentOf html) := by
    induction caches with
    | nil => rfl
    | cons cache rest ih =>
      rw [extractEmotionStyle_cons]
      simp only [List.filter_cons]
      by_cases hc : (cache.extractCritical html).css = []
      · have h1 : (!(cache.extractCritical html).css.isEmpty) = false := by
          rw [List.isEmpty_iff.mpr hc]; rfl
        rw [if_pos hc, h1]
        simpa using ih
      · have h1 : (!(cache.extractCritical html).css.isEmpty) = true := by
          cases hi : (cache.extractCritical html).css.isEmpty
          · rfl
          · exact absurd (List.isEmpty_iff.mp hi) hc
        rw [if_neg hc, if_pos h1, List.map_cons, ← ih]
        rfl
  refine ⟨heq, ?_⟩
  rw [heq, List.length_map]
  exact List.length_filter_le _ _

/-!
## Claim C5: the export post-processor drops parametric pages
-/

/-- Post-processing a page never changes its path. -/
theorem processFile_path (pubPath : JStr) (caches : List SSRCache) (fs : FS)
    (file : HtmlFile) : (processFile pubPath caches fs file).2.path = file.path := rfl

/-- The page traversal preserves the list of paths. -/
theorem processFiles_map_path (pubPath : JStr) (caches : List SSRCache) :
    ∀ (fs : FS) (files : List HtmlFile),
      (processFiles pubPath caches fs files).2.map HtmlFile.path
        = files.map HtmlFile.path := by
  intro fs files
  induction files generalizing fs with
  | nil => rfl
  | cons f rest ih =>
    show ((processFile pubPath caches fs f).2
        :: (processFiles pubPath caches (processFile pubPath caches fs f).1 rest).2).map
          HtmlFile.path = _
    rw [List.map_cons, processFile_path, ih]
    rfl

/-- Filtering then projecting a field commutes with projecting then
filtering on the field. -/
theorem map_path_filter (files : List HtmlFile) (p : JStr → Bool) :
    (files.filter (fun f => p f.path)).map HtmlFile.path
      = (files.map HtmlFile.path).filter p := by
  induction files with
  | nil => rfl
  | cons f rest ih =>
    simp only [List.filter_cons, List.map_cons]
    by_cases hp : p f.path = true
    · rw [if_pos hp, if_pos hp, List.map_cons, ih]
    · rw [if_neg (by simpa using hp), if_neg (by simpa using hp), ih]

/-- Splitting a list by a predicate splits its length. -/
theorem length_filter_split (l : List HtmlFile) (p : HtmlFile → Bool) :
    (l.filter p).length + (l.filter (fun a => !p a)).length = l.length := by
  induction l with
  | nil => rfl
  | cons f rest ih =>
    simp only [List.filter_cons]
    by_cases hp : p f = true
    · rw [if_pos hp, if_neg (by simp [hp])]
      simp only [List.length_cons]
      omega
    · have hpf : p f = false := by
        cases hpf : p f
        · rfl
        · exact absurd hpf hp
      have hnb : (!p f) = true := by rw [hpf]; rfl
      rw [if_neg hp, if_pos hnb]
      simp only [List.length_cons]
      omega

/-- Claim C5: the export post-processor keeps exactly the pages whose
path lacks the parametric marker, in the original order; no parametric
page survives, and the output count is the input count minus the number
of parametric pages. -/
theorem modifyExportHTMLFiles_filters (pubPath : JStr) (caches : List SSRCache)
    (fs : FS) (files : List HtmlFile) :
    (modifyExportHTMLFiles pubPath caches fs files).2.map HtmlFile.path
        = (files.map HtmlFile.path).filter (fun pa => !(hasSub pa (":".toList)))
    ∧ (∀ f ∈ (modifyExportHTMLFiles pubPath caches fs files).2,
        hasSub f.path (":".toList) = false)
    ∧ (modifyExportHTMLFiles pubPath caches fs files).2.length
        = files.length - (files.filter (fun f => hasSub f.path (":".toList))).length := by
  have hmap : (modifyExportHTMLFiles pubPath caches fs files).2.map HtmlFile.path
      = (files.map HtmlFile.path).filter (fun pa => !(hasSub pa (":".toList))) := by
    unfold modifyExportHTMLFiles
    rw [processFiles_map_path]
    have h := map_path_filter files (fun pa => !(hasSub pa (":".toList)))
    exact h
  refine ⟨hmap, ?_, ?_⟩
  · intro f hf
    have hmem : f.path ∈ (files.map HtmlFile.path).filter
        (fun pa => !(hasSub pa (":".toList))) := by
      rw [← hmap]
      exact List.mem_map_of_mem HtmlFile.path hf
    have := (List.mem_filter.mp hmem).2
    cases hs : hasSub f.path (":".toList)
    · rfl
    · rw [hs] at this; exact absurd this (by decide)
  · have hlen := congrArg List.length hmap
    rw [List.length_map] at hlen
    have hmf := congrArg List.length
      (map_path_filter files (fun pa => !(hasSub pa (":".toList))))
    rw [List.length_map] at hmf
    have hsplit := length_filter_split files (fun f => hasSub f.path (":".toList))
    rw [hlen, ← hmf]
    omega

/-- Witness for the C5 theorem on a concrete two-page export, one page
parametric. -/
theorem modifyExportHTMLFiles_filters_witness :
    (modifyExportHTMLFiles [] [] []
        [⟨("/a".toList), ("x".toList)⟩, ⟨("/b:c".toList), ("y".toList)⟩]).2.map
        HtmlFile.path
      = ([⟨("/a".toList), ("x".toList)⟩, ⟨("/b:c".toList), ("y".toList)⟩].map
          HtmlFile.path).filter (fun pa => !(hasSub pa (":".toList)))
    ∧ hasSub (HtmlFile.path ⟨("/a".toList), ("x".toList)⟩) (":".toList) = false :=
  ⟨(modifyExportHTMLFiles_filters [] [] []
      [⟨("/a".toList), ("x".toList)⟩, ⟨("/b:c".toList), ("y".toList)⟩]).1,
    (modifyExportHTMLFiles_filters [] [] []
      [⟨("/a".toList), ("x".toList)⟩, ⟨("/b:c".toList), ("y".toList)⟩]).2.1
      ⟨("/a".toList), ("x".toList)⟩ (by decide)⟩

/-!
## Claim C2: the concrete parse scenario
-/

/-- The markdown document of the C2 scenario. -/
def mdScenario : JStr :=
  "## en-US\nHello\n\n## zh-CN\n你好\n\n```css\n.a\x7bcolor:red\x7d\n```".toList

/-- Claim C2, counterexample to the claim as stated: the style block of
the scenario document is not the bare CSS text; the closing fence
survives the flush. -/
theorem parseBlocks_scenario_cex :
    lookupRec (parseBlocks mdScenario) ("style".toList)
      ≠ some (".a\x7bcolor:red\x7d\n".toList) := by decide

/-- Claim C2, corrected: the scenario document parses to exactly the
blocks en-US "Hello\n", zh-CN "你好\n", and style
"\n.a\x7bcolor:red\x7dn```" - the flush strips the opening CSS fence
marker (and any style tags) but keeps the newline that followed the
opening marker and the bare closing fence. -/
theorem parseBlocks_scenario :
    parseBlocks mdScenario
      = [(("en-US".toList), ("Hello\n".toList)),
          (("zh-CN".toList), ("你好\n".toList)),
          (("style".toList), ("\n.a\x7bcolor:red\x7d\n```".toList))] := by decide

/-!
## Claim C8: block counts of the parser
-/

/-- The keys of the block record, in insertion order. -/
def keysOf (r : Record) : List JStr := r.map Prod.fst

/-- The block names announced by a line sequence, in order. -/
def blockNames (ls : List JStr) : List JStr := ls.filterMap getBlockName

/-- Setting a fresh key appends it to the key list. -/
theorem keysOf_setKey_fresh (r : Record) (k v : JStr) (h : k ∉ keysOf r) :
    keysOf (setKey r k v) = keysOf r ++ [k] := by
  induction r with
  | nil => rfl
  | cons e r ih =>
    obtain ⟨k', v'⟩ := e
    simp only [keysOf, List.map_cons, List.mem_cons] at h
    push_neg at h
    have hne : ¬ (k' = k) := fun hc => h.1 hc.symm
    simp only [setKey, if_neg hne, keysOf, List.map_cons]
    have hr := ih (by simpa [keysOf] using h.2)
    simp only [keysOf] at hr
    rw [hr]
    rfl

/-- The parse loop on a line that names no block. -/
theorem parseLoop_cons_none (line : JStr) (rest : List JStr) (bn : JStr)
    (cache : List JStr) (blocks : Record) (hng : getBlockName line = none) :
    parseLoop (line :: rest) bn cache blocks
      = parseLoop rest bn (cache ++ [line]) blocks := by
  show (match getBlockName line with
        | some n => parseLoop rest n [line] (fillBlock blocks bn cache)
        | none => parseLoop rest bn (cache ++ [line]) blocks) = _
  rw [hng]

/-- The parse loop on a line that names a block. -/
theorem parseLoop_cons_some (line : JStr) (rest : List JStr) (bn : JStr)
    (cache : List JStr) (blocks : Record) (n : JStr) (hng : getBlockName line = some n) :
    parseLoop (line :: rest) bn cache blocks
      = parseLoop rest n [line] (fillBlock blocks bn cache) := by
  show (match getBlockName line with
        | some n => parseLoop rest n [line] (fillBlock blocks bn cache)
        | none => parseLoop rest bn (cache ++ [line]) blocks) = _
  rw [hng]

/-- Filling a nonempty block under a fresh name appends that name. -/
theorem keysOf_fillBlock_fresh (blocks : Record) (name : JStr) (lineList : List JStr)
    (hne : lineList ≠ []) (h : name ∉ keysOf blocks) :
    keysOf (fillBlock blocks name lineList) = keysOf blocks ++ [name] := by
  unfold fillBlock
  rw [if_neg hne]
  exact keysOf_setKey_fresh blocks name _ h

/-- Main loop invariant: with a nonempty cache, pairwise-fresh pending
names, and no collisions with existing keys, the loop appends exactly the
pending block names to the key list. -/
theorem parseLoop_keys (ls : List JStr) :
    ∀ (bn : JStr) (cache : List JStr) (blocks : Record),
    cache ≠ [] →
    (bn :: blockNames ls).Nodup →
    (∀ m ∈ bn :: blockNames ls, m ∉ keysOf blocks) →
    keysOf (parseLoop ls bn cache blocks) = keysOf blocks ++ bn :: blockNames ls := by
  induction ls with
  | nil =>
    intro bn cache blocks hc _ hfresh
    show keysOf (fillBlock blocks bn cache) = _
    rw [keysOf_fillBlock_fresh blocks bn cache hc (hfresh bn (List.mem_cons_self bn _))]
    rfl
  | cons line rest ih =>
    intro bn cache blocks hc hnd hfresh
    cases hng : getBlockName line with
    | none =>
      have hnames : blockNames (line :: rest) = blockNames rest := by
        simp [blockNames, List.filterMap_cons, hng]
      rw [parseLoop_cons_none line rest bn cache blocks hng, hnames]
      exact ih bn (cache ++ [line]) blocks (by simp) (hnames ▸ hnd) (hnames ▸ hfresh)
    | some n =>
      have hnames : blockNames (line :: rest) = n :: blockNames rest := by
        simp [blockNames, List.filterMap_cons, hng]
      rw [hnames] at hnd hfresh
      have hbn_fresh : bn ∉ keysOf blocks := hfresh bn (List.mem_cons_self bn _)
      have hkeys' : keysOf (fillBlock blocks bn cache) = keysOf blocks ++ [bn] :=
        keysOf_fillBlock_fresh blocks bn cache hc hbn_fresh
      have hnd' : (n :: blockNames rest).Nodup := hnd.of_cons
      have hbn_notin : bn ∉ n :: blockNames rest := (List.nodup_cons.mp hnd).1
      have hfresh' : ∀ m ∈ n :: blockNames rest, m ∉ keysOf (fillBlock blocks bn cache) := by
        intro m hm
        rw [hkeys']
        intro hmem
        rcases List.mem_append.mp hmem with hmem | hmem
        · exact hfresh m (List.mem_cons_of_mem bn hm) hmem
        · have : m = bn := by simpa using hmem
          exact hbn_notin (this ▸ hm)
      rw [parseLoop_cons_some line rest bn cache blocks n hng]
      rw [ih n [line] (fillBlock blocks bn cache) (by simp) hnd' hfresh']
      rw [hkeys', hnames]
      simp

/-- Start-up phase: from the initial empty state the final key list is
the announced block names, possibly preceded by one entry under the
initial empty name. -/
theorem parseLoop_keys_init (ls : List JStr) :
    ∀ (cache : List JStr),
    (([] : JStr) :: blockNames ls).Nodup →
    ∃ pfx : List JStr, (pfx = [] ∨ pfx = [[]]) ∧
      keysOf (parseLoop ls [] cache []) = pfx ++ blockNames ls := by
  induction ls with
  | nil =>
    intro cache _
    show ∃ pfx, _ ∧ keysOf (fillBlock [] [] cache) = pfx ++ blockNames []
    by_cases hc : cache = []
    · exact ⟨[], Or.inl rfl, by unfold fillBlock; rw [if_pos hc]; rfl⟩
    · refine ⟨[[]], Or.inr rfl, ?_⟩
      unfold fillBlock
      rw [if_neg hc]
      rfl
  | cons line rest ih =>
    intro cache hnd
    cases hng : getBlockName line with
    | none =>
      have hnames : blockNames (line :: rest) = blockNames rest := by
        simp [blockNames, List.filterMap_cons, hng]
      obtain ⟨pfx, hp, hk⟩ := ih (cache ++ [line]) (hnames ▸ hnd)
      exact ⟨pfx, hp, by
        rw [parseLoop_cons_none line rest [] cache [] hng, hk, hnames]⟩
    | some n =>
      have hnames : blockNames (line :: rest) = n :: blockNames rest := by
        simp [blockNames, List.filterMap_cons, hng]
      rw [hnames] at hnd
      have hempty_notin : ([] : JStr) ∉ n :: blockNames rest := (List.nodup_cons.mp hnd).1
      have hnd' : (n :: blockNames rest).Nodup := hnd.of_cons
      have hkeys0 : keysOf (fillBlock [] [] cache) = [] ∨
          keysOf (fillBlock [] [] cache) = [[]] := by
        by_cases hc : cache = []
        · exact Or.inl (by unfold fillBlock; rw [if_pos hc]; rfl)
        · exact Or.inr (by unfold fillBlock; rw [if_neg hc]; rfl)
      have hfresh : ∀ m ∈ n :: blockNames rest, m ∉ keysOf (fillBlock [] [] cache) := by
        intro m hm hmem
        rcases hkeys0 with h0 | h0 <;> rw [h0] at hmem
        · simp at hmem
        · have : m = ([] : JStr) := by simpa using hmem
          exact hempty_notin (this ▸ hm)
      refine ⟨keysOf (fillBlock [] [] cache), hkeys0, ?_⟩
      rw [parseLoop_cons_some line rest [] cache [] n hng]
      rw [parseLoop_keys rest n [line] (fillBlock [] [] cache) (by simp) hnd' hfresh]
      rw [hnames]

/-- With no style markers, the announced names are exactly the trimmed
heading names, in order. -/
theorem blockNames_of_no_style (ls : List JStr)
    (hstyle : ∀ l ∈ ls, ("```css".toList).isPrefixOf l = false
        ∧ ("<style>".toList).isPrefixOf l = false) :
    blockNames ls = (ls.filter (fun l => ("## ".toList).isPrefixOf l)).map
      (fun l => trimJs (replaceFirst l ("## ".toList) [])) := by
  induction ls with
  | nil => rfl
  | cons line rest ih =>
    have hline := hstyle line (List.mem_cons_self line rest)
    have hrest : ∀ l ∈ rest, ("```css".toList).isPrefixOf l = false
        ∧ ("<style>".toList).isPrefixOf l = false :=
      fun l hl => hstyle l (List.mem_cons_of_mem line hl)
    simp only [blockNames, List.filterMap_cons, List.filter_cons]
    by_cases hh : ("## ".toList).isPrefixOf line = true
    · rw [show getBlockName line = some (trimJs (replaceFirst line ("## ".toList) [])) by
        unfold getBlockName; rw [if_pos hh]]
      rw [if_pos hh, List.map_cons]
      exact congrArg _ (ih hrest)
    · rw [show getBlockName line = none by
        unfold getBlockName
        rw [if_neg hh, if_neg (by rw [hline.1, hline.2]; simp)]]
      rw [if_neg hh]
      exact ih hrest

/-- Claim C8, corrected: for markdown with no style-marker lines whose
level-2 headings carry pairwise-distinct nonempty trimmed names, the
parser produces exactly one entry per heading under a nonempty name,
plus at most one extra entry under the initial empty name. -/
theorem parseBlocks_heading_count (md : JStr)
    (hstyle : ∀ l ∈ splitLines md, ("```css".toList).isPrefixOf l = false
        ∧ ("<style>".toList).isPrefixOf l = false)
    (hok : (([] : JStr) :: blockNames (splitLines md)).Nodup) :
    ((keysOf (parseBlocks md)).filter (fun k => !k.isEmpty)).length
        = ((splitLines md).filter (fun l => ("## ".toList).isPrefixOf l)).length
    ∧ (keysOf (parseBlocks md)).length
        ≤ ((splitLines md).filter (fun l => ("## ".toList).isPrefixOf l)).length + 1 := by
  obtain ⟨pfx, hp, hk⟩ := parseLoop_keys_init (splitLines md) [] hok
  have hempty_notin : ([] : JStr) ∉ blockNames (splitLines md) := (List.nodup_cons.mp hok).1
  have hN : (blockNames (splitLines md)).length
      = ((splitLines md).filter (fun l => ("## ".toList).isPrefixOf l)).length := by
    rw [blockNames_of_no_style (splitLines md) hstyle, List.length_map]
  have hparse : keysOf (parseBlocks md) = pfx ++ blockNames (splitLines md) := hk
  constructor
  · rw [hparse, List.filter_append]
    have hpfx : pfx.filter (fun k => !k.isEmpty) = [] := by
      rcases hp with rfl | rfl
      · rfl
      · rfl
    have hnames : (blockNames (splitLines md)).filter (fun k => !k.isEmpty)
        = blockNames (splitLines md) := by
      rw [List.filter_eq_self]
      intro k hkmem
      have : k ≠ [] := fun hc => hempty_notin (hc ▸ hkmem)
      cases hke : k.isEmpty
      · rfl
      · exact absurd (List.isEmpty_iff.mp hke) this
    rw [hpfx, hnames, List.nil_append, hN]
  · rw [hparse, List.length_append, hN]
    have hple : pfx.length ≤ 1 := by
      rcases hp with rfl | rfl
      · exact Nat.zero_le 1
      · exact Nat.le_refl 1
    omega

/-- Claim C8, counterexample to the claim as stated: a document with two
identical headings has two level-2 headings but only one named block. -/
theorem parseBlocks_heading_count_cex :
    ¬ (((keysOf (parseBlocks ("## a\n## a".toList))).filter (fun k => !k.isEmpty)).length
        = ((splitLines ("## a\n## a".toList)).filter
            (fun l => ("## ".toList).isPrefixOf l)).length) := by decide

/-- Witness for the corrected C8 theorem on a two-heading document. -/
theorem parseBlocks_heading_count_witness :
    ((keysOf (parseBlocks ("## a\nx\n## b\ny".toList))).filter
        (fun k => !k.isEmpty)).length
      = ((splitLines ("## a\nx\n## b\ny".toList)).filter
          (fun l => ("## ".toList).isPrefixOf l)).length
    ∧ (keysOf (parseBlocks ("## a\nx\n## b\ny".toList))).length
      ≤ ((splitLines ("## a\nx\n## b\ny".toList)).filter
          (fun l => ("## ".toList).isPrefixOf l)).length + 1 :=
  parseBlocks_heading_count ("## a\nx\n## b\ny".toList) (by decide) (by decide)

end XNote
